import Mathlib

/-!
Shallow embedding of the MerkleTree Rust library (src/hasher.rs, src/merkle_proof.rs,
src/prover.rs, src/verifier.rs) and proofs about it.

Modelling conventions:
* Byte sequences (`&[u8]`, `&str` as bytes) are `List Nat`; a 32-byte digest is a `Hash`
  (also `List Nat`).  The SHA-256 primitive `hash_data_sequences` is abstract to every
  property below, so each definition and theorem is parametrised by an arbitrary
  `digest : List Bytes → Hash` standing for it.
* `Option<Box<Node>>` is the inductive `NodeOpt` (its `none` is the Rust `None`; a `node`
  carries the hash and the two child options, exactly the fields of `struct Node`).
* A Rust computation that may panic (`unwrap`, `unimplemented`, shift overflow under
  debug assertions) is embedded with an outer `Option` layer: `Option.none` at that
  layer means the call panics, `some v` means it returns `v` normally.  A `Result`
  with string errors becomes `Except String T`, so e.g. `Prover::new`, which may
  return a `Result` or (in principle) panic, is embedded at type
  `Option (Except String Prover)`.
* `usize` arithmetic: the only operation in the sources whose overflow is reachable is
  the left shift `1 << height`; it is embedded as `shlChecked`, which models the
  debug-profile semantics (shift amounts `≥ 64` are an arithmetic-overflow panic; in
  the release profile the amount would instead be masked).  All other `usize` values in
  the sources stay far below `2 ^ 64` on every reachable execution.
* The `while` loop of `build_tree` is embedded with an explicit fuel argument
  (`data.len() + 1` steps, strictly more than the number of levels, since each
  collapse at least halves the level); exhausted fuel maps to the panic layer and is
  proved unreachable for every input the claims range over.
* `(self.data_length as f64).log2().ceil() as usize` is embedded as `Nat.clog 2`,
  which agrees with the exact real computation for every record count in the accepted
  range `1 ..= 2^20` (the f64 rounding error of `log2` there is far smaller
  than the distance from `log2 n` to the nearest larger integer, and `log2` of an
  exact power of two is exact); for `data_length = 0` the Rust cast of `-inf` saturates
  to `0`, and `Nat.clog 2 0 = 0` as well.
* The rayon call `par_chunks_exact_mut(2) ... enumerate ... map` computes the parent of each
  index-identified pair with a pure function and stores it back by index, so its result
  is independent of worker scheduling; it is embedded as the positional pair map
  `collapseLevel` (the remainder of `chunks_exact(2)` — at most one trailing node —
  is dropped, exactly as in Rust).
-/

abbrev Bytes := List Nat

abbrev Hash := List Nat

/-- `const MAX_DATA_SIZE: usize = 1 << 20;` (prover.rs). -/
def MAX_DATA_SIZE : Nat := 2 ^ 20

/-- Bit width of `usize` on the 64-bit targets the crate is built for. -/
def USIZE_BITS : Nat := 64

/-- `a << b` on `usize` with debug-profile overflow checking: a shift amount of at
least the bit width is an arithmetic-overflow panic (`Option.none`). -/
def shlChecked (a b : Nat) : Option Nat :=
  if b < USIZE_BITS then some ((a <<< b) % 2 ^ USIZE_BITS) else Option.none

/-- `Option<Box<Node>>` from prover.rs: either `None`, or a `Node { hash, left, right }`
behind a box.  `struct Node` itself is the `node` constructor. -/
inductive NodeOpt where
  | none
  | node (hash : Hash) (left right : NodeOpt)
deriving DecidableEq

/-- `opt.as_ref().unwrap().hash`: panics (`Option.none`) when the option is `None`. -/
def hashOfOpt : NodeOpt → Option Hash
  | NodeOpt.none => Option.none
  | NodeOpt.node h _ _ => some h

/-- Total hash projection, used only to state properties (never to model the code);
its value on `NodeOpt.none` is irrelevant because every property using it carries a
`isNodeForm` hypothesis. -/
def hashD : NodeOpt → Hash
  | NodeOpt.none => []
  | NodeOpt.node h _ _ => h

/-- `opt.as_ref().unwrap()`: the unwrapped node (still of type `NodeOpt`, but
guaranteed to be a `node`), or a panic when the option is `None`. -/
def unwrapO : NodeOpt → Option NodeOpt
  | NodeOpt.none => Option.none
  | NodeOpt.node h l r => some (NodeOpt.node h l r)

/-- Whether an `Option<Box<Node>>` value is `Some(node)`. -/
def isNodeForm : NodeOpt → Bool
  | NodeOpt.none => false
  | NodeOpt.node _ _ _ => true

/-- `pub struct MerkleProof` (merkle_proof.rs). -/
structure MerkleProof where
  leaf_index : Nat
  leaf_hash : Hash
  authentication_path : List Hash
deriving DecidableEq

/-- `pub struct Prover { root: Option<Box<Node>>, data_length: usize }` (prover.rs). -/
structure Prover where
  root : NodeOpt
  data_length : Nat
deriving DecidableEq

/-- `pub struct Verifier { root_hash: [u8; 32] }` (verifier.rs). -/
structure Verifier where
  root_hash : Hash
deriving DecidableEq

/-- The leaf level of `build_tree`: one childless node per record, hashing the bytes of the record, in input order. -/
def leafNodes (digest : List Bytes → Hash) (data : List Bytes) : List NodeOpt :=
  data.map fun d => NodeOpt.node (digest [d]) NodeOpt.none NodeOpt.none

/-- The odd-level padding step of `build_tree`: when the level size is odd, push one
childless node duplicating the hash of the last node
(`current_level.last().unwrap().as_ref().unwrap().hash.clone()`); the two `unwrap`s
are the panic layer. -/
def padLevel (level : List NodeOpt) : Option (List NodeOpt) :=
  if level.length % 2 = 1 then
    match level.getLast? with
    | Option.none => Option.none
    | some lastEntry =>
      match hashOfOpt lastEntry with
      | Option.none => Option.none
      | some h => some (level ++ [NodeOpt.node h NodeOpt.none NodeOpt.none])
  else some level

/-- The parent-level computation of `build_tree`: `par_chunks_exact_mut(2)` pairs
adjacent nodes `(2k, 2k+1)`; the hash of each parent is
`hash_data_sequences(&[chunk[0].hash, chunk[1].hash])` with the nodes of the pair as its
children, stored back at index `k`.  A trailing unpaired node is dropped, as by
`chunks_exact`.  The `as_ref().unwrap()` calls on the chunk members are the panic
layer. -/
def collapseLevel (digest : List Bytes → Hash) : List NodeOpt → Option (List NodeOpt)
  | [] => some []
  | [_] => some []
  | a :: b :: rest =>
    match hashOfOpt a, hashOfOpt b, collapseLevel digest rest with
    | some ha, some hb, some parents =>
      some (NodeOpt.node (digest [ha, hb]) a b :: parents)
    | _, _, _ => Option.none

/-- Panic-free counterpart of `collapseLevel`, used to state its result; the two agree
on levels whose entries are all `node`s (`collapseLevel_eq`). -/
def pairParents (digest : List Bytes → Hash) : List NodeOpt → List NodeOpt
  | [] => []
  | [_] => []
  | a :: b :: rest =>
    NodeOpt.node (digest [hashD a, hashD b]) a b :: pairParents digest rest

/-- Panic-free counterpart of `padLevel`; the two agree on non-empty levels whose
entries are all `node`s (`padLevel_eq`). -/
def padPure (level : List NodeOpt) : List NodeOpt :=
  if level.length % 2 = 1 then
    match level.getLast? with
    | some lastEntry => level ++ [NodeOpt.node (hashD lastEntry) NodeOpt.none NodeOpt.none]
    | Option.none => level
  else level

/-- The `while current_level.len() > 1` loop of `build_tree`, plus the final
`current_level.pop().unwrap()` (a panic exactly when the level is empty, i.e. when
`data` was empty).  `fuel` bounds the number of iterations; the callers pass
`data.len() + 1`, which is proved sufficient for every input considered. -/
def buildLoopF (digest : List Bytes → Hash) : Nat → List NodeOpt → Option NodeOpt
  | 0, _ => Option.none
  | fuel + 1, level =>
    if 1 < level.length then
      match padLevel level with
      | Option.none => Option.none
      | some padded =>
        match collapseLevel digest padded with
        | Option.none => Option.none
        | some next => buildLoopF digest fuel next
    else level.getLast?

/-- `Prover::build_tree` (prover.rs).  The `_num_threads` argument is accepted and
ignored, as in the source. -/
def build_tree (digest : List Bytes → Hash) (data : List Bytes) (_num_threads : Nat) :
    Option NodeOpt :=
  buildLoopF digest (data.length + 1) (leafNodes digest data)

/-- `Prover::new` (prover.rs): the three precondition checks in source order, then
`build_tree`. -/
def Prover.new (digest : List Bytes → Hash) (data : List Bytes) (num_threads : Nat) :
    Option (Except String Prover) :=
  if data.isEmpty then some (Except.error "Data cannot be empty")
  else if data.length > MAX_DATA_SIZE then
    some (Except.error "Data size exceeds the maximum allowed size")
  else if num_threads = 0 then some (Except.error "Number of threads cannot be zero")
  else
    match build_tree digest data num_threads with
    | Option.none => Option.none
    | some root => some (Except.ok { root := root, data_length := data.length })

/-- `Prover::get_root_hash` (prover.rs): `self.root.as_ref().map(|n| n.hash).ok_or(...)`,
total. -/
def Prover.get_root_hash (p : Prover) : Except String Hash :=
  match p.root with
  | NodeOpt.none => Except.error "Root node is missing"
  | NodeOpt.node h _ _ => Except.ok h

/-- `(n as f64).log2().ceil() as usize`, exact over the accepted range of the library
(see the header comment). -/
def ceilLog2 (n : Nat) : Nat := Nat.clog 2 n

/-- The `while height > 0` descent of `get_proof`: at height `h+1` test bit `h` of the
leaf index (`(1 << (height - 1)) & leaf_index`), push the hash of the opposite child onto
the path and step into the indicated child; each `unwrap` of a child (and the
impossible case of a `None` current node) is the panic layer. -/
def descendLoop (leaf_index : Nat) : Nat → NodeOpt → List Hash → Option (List Hash × NodeOpt)
  | 0, cur, path => some (path, cur)
  | height + 1, cur, path =>
    match cur with
    | NodeOpt.none => Option.none
    | NodeOpt.node _ l r =>
      match shlChecked 1 height with
      | Option.none => Option.none
      | some m =>
        if m &&& leaf_index ≠ 0 then
          match hashOfOpt l, unwrapO r with
          | some siblingHash, some child =>
            descendLoop leaf_index height child (path ++ [siblingHash])
          | _, _ => Option.none
        else
          match hashOfOpt r, unwrapO l with
          | some siblingHash, some child =>
            descendLoop leaf_index height child (path ++ [siblingHash])
          | _, _ => Option.none

/-- `Prover::get_proof` (prover.rs): bounds check, `self.root.as_ref().unwrap()`, the
bit-directed descent, then the proof value whose `leaf_hash` is the hash of the node
reached. -/
def Prover.get_proof (p : Prover) (leaf_index : Nat) : Option (Except String MerkleProof) :=
  if leaf_index ≥ p.data_length then some (Except.error "Leaf index is out of bounds.")
  else
    match unwrapO p.root with
    | Option.none => Option.none
    | some rootNode =>
      match descendLoop leaf_index (ceilLog2 p.data_length) rootNode [] with
      | Option.none => Option.none
      | some (path, cur) =>
        match hashOfOpt cur with
        | Option.none => Option.none
        | some lh =>
          some (Except.ok
            { leaf_index := leaf_index, leaf_hash := lh, authentication_path := path })

/-- `Prover::generate_proof` (prover.rs): `unimplemented!()`, i.e. an unconditional
panic. -/
def Prover.generate_proof (_target : Bytes) : Option MerkleProof := Option.none

/-- `Verifier::new` (verifier.rs). -/
def Verifier.new (root_hash : Hash) : Verifier := { root_hash := root_hash }

/-- The recomputation loop of `verify_proof`: walk the authentication path (already
reversed by the caller, matching `.iter().rev()`), at step `height` test bit `height`
of the claimed leaf index (`(1 << height) & proof.leaf_index`) and combine the sibling
on the indicated side.  The shift is `shlChecked`, so a path longer than `USIZE_BITS`
reaches a shift amount of `64` and panics (debug profile). -/
def verifyLoop (digest : List Bytes → Hash) (leaf_index : Nat) :
    List Hash → Nat → Hash → Option Hash
  | [], _, current => some current
  | h :: rest, height, current =>
    match shlChecked 1 height with
    | Option.none => Option.none
    | some m =>
      verifyLoop digest leaf_index rest (height + 1)
        (if m &&& leaf_index ≠ 0 then digest [h, current] else digest [current, h])

/-- `Verifier::verify_proof` (verifier.rs): recompute from the leaf hash up and compare
with the stored root hash. -/
def Verifier.verify_proof (digest : List Bytes → Hash) (v : Verifier) (proof : MerkleProof) :
    Option Bool :=
  match verifyLoop digest proof.leaf_index proof.authentication_path.reverse 0 proof.leaf_hash with
  | Option.none => Option.none
  | some current => some (decide (current = v.root_hash))

/-- Reference definition, written from the words of the spec (§4.2 of spec.md) for the
refinement claim about the root hash: level 0 is the list of leaf digests; while more
than one hash remains, append a duplicate of the last hash when the count is odd and
greater than one, then replace the level by the list of pairwise digests
`digest [h 2k, h 2k1]`; the single remaining hash is the root.  `fuel` bounds the
iteration count and `leafCount + 1` is proved sufficient. -/
def specPadHashes (level : List Hash) : List Hash :=
  if level.length % 2 = 1 ∧ 1 < level.length then
    match level.getLast? with
    | some h => level ++ [h]
    | Option.none => level
  else level

/-- Pairwise parent digests of one level, spec side (§4.2 step 2). -/
def specPairUp (digest : List Bytes → Hash) : List Hash → List Hash
  | [] => []
  | [_] => []
  | a :: b :: rest => digest [a, b] :: specPairUp digest rest

/-- Spec-side level collapse iterated to the root (§4.2 steps 1-4). -/
def specRootHash (digest : List Bytes → Hash) : Nat → List Hash → Option Hash
  | 0, _ => Option.none
  | fuel + 1, level =>
    if 1 < level.length then
      specRootHash digest fuel (specPairUp digest (specPadHashes level))
    else level.head?

/-- A concrete stand-in digest used by the closed witness instances; every theorem
holds for an arbitrary digest, so any computable choice will do. -/
def digC : List Bytes → Hash := fun parts => [parts.length]

/-- Concrete five-record data set (the non-power-of-two scenario size from the spec). -/
def dataC : List Bytes := [[1], [2], [3], [4], [5]]

/-- Concrete one-record data set. -/
def dataOne : List Bytes := [[9]]

/-- A well-typed proof value whose authentication path is longer than 64 entries. -/
def badProof : MerkleProof :=
  { leaf_index := 0, leaf_hash := [], authentication_path := List.replicate 65 [] }

/-! ### Basic facts about the node and bit helpers -/

theorem isNodeForm_hashOfOpt {x : NodeOpt} (h : isNodeForm x = true) :
    hashOfOpt x = some (hashD x) := by
  cases x with
  | none => simp [isNodeForm] at h
  | node hh l r => rfl

theorem isNodeForm_unwrapO {x : NodeOpt} (h : isNodeForm x = true) : unwrapO x = some x := by
  cases x with
  | none => simp [isNodeForm] at h
  | node hh l r => rfl

theorem shlChecked_one {b : Nat} (hb : b < 64) : shlChecked 1 b = some (2 ^ b) := by
  have hlt : b < USIZE_BITS := hb
  have hpow : (2 : Nat) ^ b < 2 ^ USIZE_BITS := Nat.pow_lt_pow_right (by norm_num) hb
  simp only [shlChecked, if_pos hlt, Nat.one_shiftLeft, Nat.mod_eq_of_lt hpow]

theorem two_pow_and_ne {b i : Nat} : (2 ^ b &&& i ≠ 0) ↔ i.testBit b = true := by
  rw [Nat.two_pow_and]
  rcases h : i.testBit b with _ | _
  · simp
  · simp [(Nat.two_pow_pos b).ne']

theorem testBit_parity {i : Nat} : i.testBit 0 = true ↔ i % 2 = 1 := by
  simp [Nat.testBit_zero]

/-! ### Facts about one level collapse -/

theorem pairParents_length (digest : List Bytes → Hash) :
    ∀ l : List NodeOpt, (pairParents digest l).length = l.length / 2
  | [] => by simp [pairParents]
  | [_] => by simp [pairParents]
  | a :: b :: rest => by
    have ih := pairParents_length digest rest
    simp only [pairParents, List.length_cons]
    omega

theorem pairParents_all (digest : List Bytes → Hash) :
    ∀ l : List NodeOpt, ∀ y ∈ pairParents digest l, isNodeForm y = true
  | [] => by simp [pairParents]
  | [_] => by simp [pairParents]
  | a :: b :: rest => by
    intro y hy
    rcases (List.mem_cons).1 hy with h | h
    · subst h; rfl
    · exact pairParents_all digest rest y h

theorem pairParents_get (digest : List Bytes → Hash) :
    ∀ (l : List NodeOpt) (k : Nat) (a b : NodeOpt), l[2 * k]? = some a → l[2 * k + 1]? = some b →
      (pairParents digest l)[k]? = some (NodeOpt.node (digest [hashD a, hashD b]) a b)
  | [], k, a, b => by simp
  | [x], k, a, b => by
    intro _ h2
    have : (1 : Nat) ≤ 2 * k + 1 := by omega
    rw [List.getElem?_eq_none (by simp)] at h2
    exact absurd h2 (by simp)
  | x :: y :: rest, k, a, b => by
    intro h1 h2
    cases k with
    | zero =>
      have h1' : x = a := by simpa using h1
      have h2' : y = b := by simpa using h2
      subst h1'; subst h2'
      simp [pairParents]
    | succ k =>
      have e1 : 2 * (k + 1) = (2 * k + 1) + 1 := by omega
      have e2 : 2 * (k + 1) + 1 = (2 * k + 1 + 1) + 1 := by omega
      rw [e1, List.getElem?_cons_succ, List.getElem?_cons_succ] at h1
      rw [e2, List.getElem?_cons_succ, List.getElem?_cons_succ] at h2
      have ih := pairParents_get digest rest k a b h1 h2
      simpa [pairParents] using ih

theorem pairParents_mapHash (digest : List Bytes → Hash) :
    ∀ l : List NodeOpt, List.map hashD (pairParents digest l) =
      specPairUp digest (List.map hashD l)
  | [] => rfl
  | [_] => rfl
  | a :: b :: rest => by
    simp only [pairParents, specPairUp, List.map_cons, List.map_nil]
    exact congrArg _ (pairParents_mapHash digest rest)

theorem collapseLevel_eq (digest : List Bytes → Hash) :
    ∀ l : List NodeOpt, (∀ x ∈ l, isNodeForm x = true) →
      collapseLevel digest l = some (pairParents digest l)
  | [] , _ => rfl
  | [_], _ => rfl
  | a :: b :: rest, hall => by
    have ha := isNodeForm_hashOfOpt (hall a (by simp))
    have hb := isNodeForm_hashOfOpt (hall b (by simp))
    have hr := collapseLevel_eq digest rest (fun x hx => hall x (by simp [hx]))
    simp [collapseLevel, pairParents, ha, hb, hr]

/-! ### Facts about the padding step -/

theorem padLevel_eq {l : List NodeOpt} (hne : l ≠ [])
    (hall : ∀ x ∈ l, isNodeForm x = true) : padLevel l = some (padPure l) := by
  unfold padLevel padPure
  by_cases hodd : l.length % 2 = 1
  · rw [if_pos hodd, if_pos hodd, List.getLast?_eq_getLast l hne]
    have hmem := List.getLast_mem hne
    simp only [isNodeForm_hashOfOpt (hall _ hmem)]
  · rw [if_neg hodd, if_neg hodd]

theorem padPure_all {l : List NodeOpt} (hall : ∀ x ∈ l, isNodeForm x = true) :
    ∀ x ∈ padPure l, isNodeForm x = true := by
  intro x hx
  unfold padPure at hx
  by_cases hodd : l.length % 2 = 1
  · rw [if_pos hodd] at hx
    rcases hll : l.getLast? with _ | lastEntry
    · rw [hll] at hx; exact hall x hx
    · rw [hll] at hx
      rcases (List.mem_append).1 hx with h | h
      · exact hall x h
      · simp only [List.mem_singleton] at h
        subst h; rfl
  · rw [if_neg hodd] at hx; exact hall x hx

theorem padPure_length {l : List NodeOpt} :
    (padPure l).length = l.length + l.length % 2 := by
  unfold padPure
  by_cases hodd : l.length % 2 = 1
  · have hne : l ≠ [] := by
      intro h; subst h; simp at hodd
    rw [if_pos hodd, List.getLast?_eq_getLast l hne]
    simp [hodd]
  · rw [if_neg hodd]
    omega

theorem padPure_get {l : List NodeOpt} {i : Nat} (hi : i < l.length) :
    (padPure l)[i]? = l[i]? := by
  unfold padPure
  by_cases hodd : l.length % 2 = 1
  · rw [if_pos hodd]
    rcases hll : l.getLast? with _ | lastEntry
    · rfl
    · exact List.getElem?_append_left hi
  · rw [if_neg hodd]

theorem padPure_mapHash {l : List NodeOpt} (hlen : 1 < l.length) :
    List.map hashD (padPure l) = specPadHashes (List.map hashD l) := by
  have hne : l ≠ [] := by
    intro h; subst h; simp at hlen
  unfold padPure specPadHashes
  by_cases hodd : l.length % 2 = 1
  · have hcond : (List.map hashD l).length % 2 = 1 ∧ 1 < (List.map hashD l).length := by
      simpa using ⟨hodd, hlen⟩
    rw [if_pos hodd, if_pos hcond, List.getLast?_map, List.getLast?_eq_getLast l hne]
    simp [hashD]
  · have hcond : ¬((List.map hashD l).length % 2 = 1 ∧ 1 < (List.map hashD l).length) := by
      rw [List.length_map]
      exact fun hc => hodd hc.1
    rw [if_neg hodd, if_neg hcond]

/-! ### The descent peels bits from the top, the verifier from the bottom: the two
agree through the halving of the leaf index. -/

theorem testBit_half {i b : Nat} : i.testBit (b + 1) = (i / 2).testBit b :=
  Nat.testBit_succ i b

theorem descendLoop_step (i h : Nat) (hh : h < 64) (hs : Hash) (l r : NodeOpt)
    (path : List Hash) :
    descendLoop i (h + 1) (NodeOpt.node hs l r) path =
      if 2 ^ h &&& i ≠ 0 then
        match hashOfOpt l, unwrapO r with
        | some sib, some child => descendLoop i h child (path ++ [sib])
        | _, _ => Option.none
      else
        match hashOfOpt r, unwrapO l with
        | some sib, some child => descendLoop i h child (path ++ [sib])
        | _, _ => Option.none := by
  conv_lhs => rw [descendLoop]
  rw [shlChecked_one hh]

theorem descend_shift (i : Nat) :
    ∀ (h : Nat), h ≤ 63 → ∀ (cur : NodeOpt) (path : List Hash),
      descendLoop i (h + 1) cur path =
        (descendLoop (i / 2) h cur path).bind fun pr => descendLoop i 1 pr.2 pr.1
  | 0, _, cur, path => by
    simp [descendLoop]
  | h + 1, hle, cur, path => by
    cases cur with
    | none => simp [descendLoop]
    | node hs l r =>
      have hbit : ((2 ^ (h + 1)) &&& i ≠ 0) ↔ ((2 ^ h) &&& (i / 2) ≠ 0) := by
        simp only [two_pow_and_ne, testBit_half]
      rw [descendLoop_step i (h + 1) (by omega) hs l r path,
        descendLoop_step (i / 2) h (by omega) hs l r path]
      by_cases hdir : (2 ^ h) &&& (i / 2) ≠ 0
      · rw [if_pos (hbit.mpr hdir), if_pos hdir]
        cases hol : hashOfOpt l with
        | none => simp
        | some siblingHash =>
          cases hor : unwrapO r with
          | none => simp
          | some child =>
            simp only [Option.some_bind]
            exact descend_shift i h (by omega) child (path ++ [siblingHash])
      · rw [if_neg (fun hc => hdir (hbit.mp hc)), if_neg hdir]
        cases hor : hashOfOpt r with
        | none => simp
        | some siblingHash =>
          cases hol : unwrapO l with
          | none => simp
          | some child =>
            simp only [Option.some_bind]
            exact descend_shift i h (by omega) child (path ++ [siblingHash])

theorem verify_shift (digest : List Bytes → Hash) (i : Nat) :
    ∀ (rest : List Hash) (t : Nat) (cur : Hash), t + rest.length ≤ 63 →
      verifyLoop digest i rest (t + 1) cur = verifyLoop digest (i / 2) rest t cur
  | [], t, cur, _ => by simp [verifyLoop]
  | h :: rest, t, cur, hle => by
    have hlen : t + rest.length ≤ 62 := by
      simp only [List.length_cons] at hle; omega
    have hbit : ((2 ^ (t + 1)) &&& i ≠ 0) ↔ ((2 ^ t) &&& (i / 2) ≠ 0) := by
      simp only [two_pow_and_ne, testBit_half]
    simp only [verifyLoop, shlChecked_one (show t + 1 < 64 by omega),
      shlChecked_one (show t < 64 by omega), hbit]
    exact verify_shift digest i rest (t + 1) _ (by omega)

theorem verifyLoop_total (digest : List Bytes → Hash) (i : Nat) :
    ∀ (l : List Hash) (t : Nat) (cur : Hash), t + l.length ≤ 64 →
      ∃ h, verifyLoop digest i l t cur = some h
  | [], t, cur, _ => ⟨cur, rfl⟩
  | h :: rest, t, cur, hle => by
    have ht : t < 64 := by
      simp only [List.length_cons] at hle; omega
    simp only [verifyLoop, shlChecked_one ht]
    exact verifyLoop_total digest i rest (t + 1) _
      (by simp only [List.length_cons] at hle; omega)

theorem clog2_step {m : Nat} (hm : 2 ≤ m) :
    Nat.clog 2 m = Nat.clog 2 ((m + 1) / 2) + 1 := by
  simpa using Nat.clog_of_two_le (b := 2) (by norm_num) hm

theorem verifyLoop_cons (digest : List Bytes → Hash) (i : Nat) (h : Hash) (rest : List Hash)
    (t : Nat) (cur : Hash) (ht : t < 64) :
    verifyLoop digest i (h :: rest) t cur =
      verifyLoop digest i rest (t + 1)
        (if 2 ^ t &&& i ≠ 0 then digest [h, cur] else digest [cur, h]) := by
  conv_lhs => rw [verifyLoop]
  rw [shlChecked_one ht]

/-! ### Main induction: one level collapse at a time, the built tree, the
bit-directed descent, the path length and the verifier recomputation all agree. -/

theorem buildLoopF_main (digest : List Bytes → Hash) :
    ∀ (fuel : Nat) (level : List NodeOpt), level.length ≤ fuel → 1 ≤ level.length →
      Nat.clog 2 level.length ≤ 64 → (∀ x ∈ level, isNodeForm x = true) →
      ∃ R, buildLoopF digest fuel level = some R ∧ isNodeForm R = true ∧
        specRootHash digest fuel (List.map hashD level) = some (hashD R) ∧
        ∀ i, i < level.length →
          ∃ path tgt, level[i]? = some tgt ∧
            descendLoop i (Nat.clog 2 level.length) R [] = some (path, tgt) ∧
            path.length = Nat.clog 2 level.length ∧
            verifyLoop digest i path.reverse 0 (hashD tgt) = some (hashD R)
  | 0, level, hf, h1, _, _ => by omega
  | fuel + 1, level, hf, h1, hclog, hall => by
    by_cases hlen : 1 < level.length
    case neg =>
      have hlen1 : level.length = 1 := by omega
      obtain ⟨x, rfl⟩ := List.length_eq_one.mp hlen1
      refine ⟨x, by simp [buildLoopF], hall x (by simp), by simp [specRootHash], ?_⟩
      intro i hi
      have hi0 : i = 0 := by simpa using hi
      subst hi0
      refine ⟨[], x, by simp, ?_, ?_, ?_⟩
      · simp [Nat.clog_one_right, descendLoop]
      · simp [Nat.clog_one_right]
      · simp [verifyLoop]
    case pos =>
      have hne : level ≠ [] := by
        intro h; subst h; simp at hlen
      have hpad : padLevel level = some (padPure level) := padLevel_eq hne hall
      have hpall : ∀ x ∈ padPure level, isNodeForm x = true := padPure_all hall
      have hplen : (padPure level).length = level.length + level.length % 2 :=
        padPure_length
      have hcoll : collapseLevel digest (padPure level) =
          some (pairParents digest (padPure level)) :=
        collapseLevel_eq digest (padPure level) hpall
      have hnlen : (pairParents digest (padPure level)).length = (padPure level).length / 2 :=
        pairParents_length digest (padPure level)
      have hnall : ∀ y ∈ pairParents digest (padPure level), isNodeForm y = true :=
        pairParents_all digest (padPure level)
      have hnlen2 : (pairParents digest (padPure level)).length = (level.length + 1) / 2 := by
        omega
      have hclog_step :
          Nat.clog 2 level.length =
            Nat.clog 2 (pairParents digest (padPure level)).length + 1 := by
        rw [clog2_step (by omega), ← hnlen2]
      obtain ⟨R, hbuild, hRform, hspec, hdesc⟩ :=
        buildLoopF_main digest fuel (pairParents digest (padPure level))
          (by omega) (by omega) (by omega) hnall
      refine ⟨R, ?_, hRform, ?_, ?_⟩
      · simp only [buildLoopF, if_pos hlen, hpad, hcoll]
        exact hbuild
      · have hmap1 : specPadHashes (List.map hashD level) = List.map hashD (padPure level) :=
          (padPure_mapHash hlen).symm
        have hmap2 : specPairUp digest (List.map hashD (padPure level)) =
            List.map hashD (pairParents digest (padPure level)) :=
          (pairParents_mapHash digest (padPure level)).symm
        have hlenmap : 1 < (List.map hashD level).length := by
          rw [List.length_map]; exact hlen
        simp only [specRootHash, if_pos hlenmap, hmap1, hmap2]
        exact hspec
      · intro i hi
        have hk : i / 2 < (pairParents digest (padPure level)).length := by omega
        obtain ⟨pathk, tgtN, hNk, hdesck, hpathlen, hverifyk⟩ := hdesc (i / 2) hk
        have h2k : 2 * (i / 2) < (padPure level).length := by omega
        have h2k1 : 2 * (i / 2) + 1 < (padPure level).length := by omega
        obtain ⟨aElt, ha⟩ : ∃ aa, (padPure level)[2 * (i / 2)]? = some aa :=
          ⟨_, List.getElem?_eq_getElem h2k⟩
        obtain ⟨bElt, hb⟩ : ∃ bb, (padPure level)[2 * (i / 2) + 1]? = some bb :=
          ⟨_, List.getElem?_eq_getElem h2k1⟩
        have hpg := pairParents_get digest (padPure level) (i / 2) aElt bElt ha hb
        have htgtN : tgtN = NodeOpt.node (digest [hashD aElt, hashD bElt]) aElt bElt :=
          Option.some.inj (hNk.symm.trans hpg)
        have haform : isNodeForm aElt = true := hpall _ (List.getElem?_mem ha)
        have hbform : isNodeForm bElt = true := hpall _ (List.getElem?_mem hb)
        have hdshift := descend_shift i (Nat.clog 2 (pairParents digest (padPure level)).length)
          (by omega) R []
        have hcomb : digest [hashD aElt, hashD bElt] = hashD tgtN := by
          rw [htgtN]; rfl
        by_cases hodd : i % 2 = 1
        case pos =>
          have hieq : 2 * (i / 2) + 1 = i := by omega
          have hbit : 2 ^ 0 &&& i ≠ 0 := by
            rw [two_pow_and_ne, testBit_parity]; exact hodd
          have htgt : level[i]? = some bElt := by
            have hbb := hb
            rw [hieq, padPure_get hi] at hbb
            exact hbb
          refine ⟨pathk ++ [hashD aElt], bElt, htgt, ?_, ?_, ?_⟩
          · rw [hclog_step, hdshift, hdesck, Option.some_bind, htgtN,
              descendLoop_step i 0 (by omega), if_pos hbit,
              isNodeForm_hashOfOpt haform, isNodeForm_unwrapO hbform]
            rfl
          · simp only [List.length_append, List.length_singleton, hpathlen]
            omega
          · rw [List.reverse_append, List.reverse_singleton, List.singleton_append,
              verifyLoop_cons digest i _ _ 0 _ (by omega), if_pos hbit,
              verify_shift digest i pathk.reverse 0 _ (by simp [hpathlen]; omega),
              hcomb]
            exact hverifyk
        case neg =>
          have hieq : 2 * (i / 2) = i := by omega
          have hbit : ¬(2 ^ 0 &&& i ≠ 0) := by
            rw [two_pow_and_ne, testBit_parity]; omega
          have htgt : level[i]? = some aElt := by
            have haa := ha
            rw [hieq, padPure_get hi] at haa
            exact haa
          refine ⟨pathk ++ [hashD bElt], aElt, htgt, ?_, ?_, ?_⟩
          · rw [hclog_step, hdshift, hdesck, Option.some_bind, htgtN,
              descendLoop_step i 0 (by omega), if_neg hbit,
              isNodeForm_hashOfOpt hbform, isNodeForm_unwrapO haform]
            rfl
          · simp only [List.length_append, List.length_singleton, hpathlen]
            omega
          · rw [List.reverse_append, List.reverse_singleton, List.singleton_append,
              verifyLoop_cons digest i _ _ 0 _ (by omega), if_neg hbit,
              verify_shift digest i pathk.reverse 0 _ (by simp [hpathlen]; omega),
              hcomb]
            exact hverifyk

/-! ### Assembling the induction into facts about the public operations -/

theorem leafNodes_all (digest : List Bytes → Hash) (data : List Bytes) :
    ∀ x ∈ leafNodes digest data, isNodeForm x = true := by
  intro x hx
  obtain ⟨d, _, rfl⟩ := List.mem_map.1 hx
  rfl

theorem leafNodes_length (digest : List Bytes → Hash) (data : List Bytes) :
    (leafNodes digest data).length = data.length := by
  simp [leafNodes]

theorem leafNodes_mapHash (digest : List Bytes → Hash) (data : List Bytes) :
    List.map hashD (leafNodes digest data) = data.map fun d => digest [d] := by
  unfold leafNodes
  rw [List.map_map]
  rfl

theorem leafNodes_get {digest : List Bytes → Hash} {data : List Bytes} {i : Nat} {d : Bytes}
    (h : data[i]? = some d) :
    (leafNodes digest data)[i]? =
      some (NodeOpt.node (digest [d]) NodeOpt.none NodeOpt.none) := by
  simp [leafNodes, List.getElem?_map, h]

theorem clog2_le_64 {n : Nat} (h : n ≤ MAX_DATA_SIZE) : Nat.clog 2 n ≤ 64 := by
  have h1 : Nat.clog 2 n ≤ Nat.clog 2 (2 ^ 20) := by
    apply Nat.clog_mono_right
    simpa [MAX_DATA_SIZE] using h
  have h2 : Nat.clog 2 (2 ^ 20) = 20 := Nat.clog_pow 2 20 (by norm_num)
  omega

theorem prover_master (digest : List Bytes → Hash) (data : List Bytes) (nt : Nat)
    (h1 : 1 ≤ data.length) (h2 : data.length ≤ MAX_DATA_SIZE) (h3 : nt ≠ 0) :
    ∃ R, Prover.new digest data nt =
        some (Except.ok { root := R, data_length := data.length }) ∧
      isNodeForm R = true ∧
      specRootHash digest (data.length + 1) (data.map fun d => digest [d]) =
        some (hashD R) ∧
      ∀ i, i < data.length →
        ∃ path tgt, (leafNodes digest data)[i]? = some tgt ∧
          descendLoop i (Nat.clog 2 data.length) R [] = some (path, tgt) ∧
          path.length = Nat.clog 2 data.length ∧
          verifyLoop digest i path.reverse 0 (hashD tgt) = some (hashD R) := by
  have hlen := leafNodes_length digest data
  obtain ⟨R, hbuild, hRform, hspec, hdesc⟩ :=
    buildLoopF_main digest (data.length + 1) (leafNodes digest data)
      (by omega) (by omega) (by rw [hlen]; exact clog2_le_64 h2)
      (leafNodes_all digest data)
  have hempty : ¬(data.isEmpty = true) := by
    cases data with
    | nil => simp at h1
    | cons d ds => simp
  have hnew : Prover.new digest data nt =
      some (Except.ok { root := R, data_length := data.length }) := by
    unfold Prover.new
    rw [if_neg hempty, if_neg (by omega), if_neg h3]
    unfold build_tree
    rw [hbuild]
  refine ⟨R, hnew, hRform, ?_, ?_⟩
  · have hspec2 := hspec
    rw [leafNodes_mapHash digest data] at hspec2
    exact hspec2
  · intro i hi
    obtain ⟨path, tgt, htgt, hdescend, hplen, hverify⟩ := hdesc i (by omega)
    rw [hlen] at hdescend hplen
    exact ⟨path, tgt, htgt, hdescend, hplen, hverify⟩

theorem get_proof_success (digest : List Bytes → Hash) (data : List Bytes) (nt i : Nat)
    (h1 : 1 ≤ data.length) (h2 : data.length ≤ MAX_DATA_SIZE) (h3 : nt ≠ 0)
    (hi : i < data.length) :
    ∃ R path tgt,
      Prover.new digest data nt =
        some (Except.ok { root := R, data_length := data.length }) ∧
      isNodeForm R = true ∧
      (leafNodes digest data)[i]? = some tgt ∧
      Prover.get_proof { root := R, data_length := data.length } i =
        some (Except.ok
          { leaf_index := i, leaf_hash := hashD tgt, authentication_path := path }) ∧
      path.length = Nat.clog 2 data.length ∧
      verifyLoop digest i path.reverse 0 (hashD tgt) = some (hashD R) := by
  obtain ⟨R, hnew, hRform, _, hdesc⟩ := prover_master digest data nt h1 h2 h3
  obtain ⟨path, tgt, htgt, hdescend, hplen, hverify⟩ := hdesc i hi
  have htform : isNodeForm tgt = true :=
    leafNodes_all digest data tgt (List.getElem?_mem htgt)
  have hproof : Prover.get_proof { root := R, data_length := data.length } i =
      some (Except.ok
        { leaf_index := i, leaf_hash := hashD tgt, authentication_path := path }) := by
    unfold Prover.get_proof
    rw [if_neg (by simp; omega)]
    simp only [isNodeForm_unwrapO hRform, ceilLog2, hdescend, isNodeForm_hashOfOpt htform]
  exact ⟨R, path, tgt, hnew, hRform, htgt, hproof, hplen, hverify⟩

/-! ### Claim theorems -/

/-- C1: Round-trip.  For every record sequence of length `n` with `1 ≤ n ≤ 2^20`, every
positive parallelism hint and every `leaf_index` in `[0, n)`, verifying the proof
produced by `get_proof leaf_index` against the root hash returned by `get_root_hash`
returns `true` — for all `n`, including values that are not powers of two (the digest
function is arbitrary, so this holds for the abstract SHA-256 in particular). -/
theorem roundtrip_verify_proof (digest : List Bytes → Hash) (data : List Bytes) (nt i : Nat)
    (h1 : 1 ≤ data.length) (h2 : data.length ≤ MAX_DATA_SIZE) (h3 : 0 < nt)
    (hi : i < data.length) :
    ∃ p rh pf, Prover.new digest data nt = some (Except.ok p) ∧
      p.get_root_hash = Except.ok rh ∧
      p.get_proof i = some (Except.ok pf) ∧
      Verifier.verify_proof digest (Verifier.new rh) pf = some true := by
  obtain ⟨R, path, tgt, hnew, hRform, htgt, hproof, hplen, hverify⟩ :=
    get_proof_success digest data nt i h1 h2 (by omega) hi
  refine ⟨_, hashD R, _, hnew, ?_, hproof, ?_⟩
  · cases R with
    | none => simp [isNodeForm] at hRform
    | node hh l r => rfl
  · unfold Verifier.verify_proof Verifier.new
    simp only [hverify]
    simp

/-- C1 witness: the five-record data set, hint 8, leaf index 3. -/
theorem roundtrip_verify_proof_witness :
    (1 ≤ dataC.length ∧ dataC.length ≤ MAX_DATA_SIZE ∧ 0 < 8 ∧ 3 < dataC.length) ∧
    ∃ p rh pf, Prover.new digC dataC 8 = some (Except.ok p) ∧
      p.get_root_hash = Except.ok rh ∧
      p.get_proof 3 = some (Except.ok pf) ∧
      Verifier.verify_proof digC (Verifier.new rh) pf = some true :=
  ⟨⟨by decide, by decide, by decide, by decide⟩,
   roundtrip_verify_proof digC dataC 8 3 (by decide) (by decide) (by decide) (by decide)⟩

/-- C2: the root hash of the tree built by `Prover::new` equals the reference
level-collapse definition written from the spec (`specRootHash` over the leaf digests
in input order), for every record count in `1 ..= 2^20` and any positive hint. -/
theorem root_hash_refines_spec_collapse (digest : List Bytes → Hash) (data : List Bytes)
    (nt : Nat) (h1 : 1 ≤ data.length) (h2 : data.length ≤ MAX_DATA_SIZE) (h3 : 0 < nt) :
    ∃ p rh, Prover.new digest data nt = some (Except.ok p) ∧
      p.get_root_hash = Except.ok rh ∧
      specRootHash digest (data.length + 1) (data.map fun d => digest [d]) = some rh := by
  obtain ⟨R, hnew, hRform, hspec, _⟩ := prover_master digest data nt h1 h2 (by omega)
  refine ⟨_, hashD R, hnew, ?_, hspec⟩
  cases R with
  | none => simp [isNodeForm] at hRform
  | node hh l r => rfl

/-- C2 witness: the five-record data set, hint 2. -/
theorem root_hash_refines_spec_collapse_witness :
    (1 ≤ dataC.length ∧ dataC.length ≤ MAX_DATA_SIZE ∧ 0 < 2) ∧
    ∃ p rh, Prover.new digC dataC 2 = some (Except.ok p) ∧
      p.get_root_hash = Except.ok rh ∧
      specRootHash digC (dataC.length + 1) (dataC.map fun d => digC [d]) = some rh :=
  ⟨⟨by decide, by decide, by decide⟩,
   root_hash_refines_spec_collapse digC dataC 2 (by decide) (by decide) (by decide)⟩

/-- C3: for every successfully built tree and every `leaf_index < n`, the
`leaf_hash` is `digest [record at leaf_index]`: the bit-directed descent lands exactly
on the leaf of that index, for all `n` including non-powers of two. -/
theorem get_proof_leaf_hash_is_record_digest (digest : List Bytes → Hash)
    (data : List Bytes) (nt i : Nat) (h1 : 1 ≤ data.length)
    (h2 : data.length ≤ MAX_DATA_SIZE) (h3 : 0 < nt) (hi : i < data.length) :
    ∃ p pf d, data[i]? = some d ∧
      Prover.new digest data nt = some (Except.ok p) ∧
      p.get_proof i = some (Except.ok pf) ∧
      pf.leaf_index = i ∧ pf.leaf_hash = digest [d] := by
  obtain ⟨R, path, tgt, hnew, hRform, htgt, hproof, _, _⟩ :=
    get_proof_success digest data nt i h1 h2 (by omega) hi
  obtain ⟨d, hd⟩ : ∃ d, data[i]? = some d := ⟨_, List.getElem?_eq_getElem hi⟩
  refine ⟨_, _, d, hd, hnew, hproof, rfl, ?_⟩
  have htgt_eq : tgt = NodeOpt.node (digest [d]) NodeOpt.none NodeOpt.none :=
    Option.some.inj (htgt.symm.trans (leafNodes_get hd))
  show hashD tgt = digest [d]
  rw [htgt_eq]
  rfl

/-- C3 witness: the five-record data set, hint 1, leaf index 2. -/
theorem get_proof_leaf_hash_is_record_digest_witness :
    (1 ≤ dataC.length ∧ dataC.length ≤ MAX_DATA_SIZE ∧ 0 < 1 ∧ 2 < dataC.length) ∧
    ∃ p pf d, dataC[2]? = some d ∧
      Prover.new digC dataC 1 = some (Except.ok p) ∧
      p.get_proof 2 = some (Except.ok pf) ∧
      pf.leaf_index = 2 ∧ pf.leaf_hash = digC [d] :=
  ⟨⟨by decide, by decide, by decide, by decide⟩,
   get_proof_leaf_hash_is_record_digest digC dataC 1 2
     (by decide) (by decide) (by decide) (by decide)⟩

/-- C4: the authentication path returned by `get_proof` has length exactly
`⌈log₂ n⌉` (`Nat.clog 2 n`); in particular for `n = 1` the path is empty and the
field `leaf_hash` of the proof equals the root hash of the tree. -/
theorem auth_path_length_eq_clog (digest : List Bytes → Hash) (data : List Bytes)
    (nt i : Nat) (h1 : 1 ≤ data.length) (h2 : data.length ≤ MAX_DATA_SIZE)
    (h3 : 0 < nt) (hi : i < data.length) :
    ∃ p pf, Prover.new digest data nt = some (Except.ok p) ∧
      p.get_proof i = some (Except.ok pf) ∧
      pf.authentication_path.length = Nat.clog 2 data.length ∧
      (data.length = 1 → pf.authentication_path = [] ∧
        p.get_root_hash = Except.ok pf.leaf_hash) := by
  obtain ⟨R, path, tgt, hnew, hRform, htgt, hproof, hplen, hverify⟩ :=
    get_proof_success digest data nt i h1 h2 (by omega) hi
  refine ⟨_, _, hnew, hproof, hplen, ?_⟩
  intro hone
  have hplen0 : path.length = 0 := by rw [hplen, hone, Nat.clog_one_right]
  have hpath_nil : path = [] := List.length_eq_zero.mp hplen0
  subst hpath_nil
  have hth : hashD tgt = hashD R := by
    have hv := hverify
    simp [verifyLoop] at hv
    exact hv
  refine ⟨rfl, ?_⟩
  cases R with
  | none => simp [isNodeForm] at hRform
  | node hh l r => exact congrArg Except.ok hth.symm

/-- C4 witness: a single-record data set; the path is empty and the leaf hash is the
root hash. -/
theorem auth_path_length_eq_clog_witness :
    (1 ≤ dataOne.length ∧ dataOne.length ≤ MAX_DATA_SIZE ∧ 0 < 3 ∧ 0 < dataOne.length) ∧
    ∃ p pf, Prover.new digC dataOne 3 = some (Except.ok p) ∧
      p.get_proof 0 = some (Except.ok pf) ∧
      pf.authentication_path.length = Nat.clog 2 dataOne.length ∧
      (dataOne.length = 1 → pf.authentication_path = [] ∧
        p.get_root_hash = Except.ok pf.leaf_hash) :=
  ⟨⟨by decide, by decide, by decide, by decide⟩,
   auth_path_length_eq_clog digC dataOne 3 0 (by decide) (by decide) (by decide) (by decide)⟩

/-- C5 counterexample: with an empty record sequence and a zero parallelism hint the
constructor reports the EmptyInput error, not the InvalidParallelism one, because the
emptiness check runs first; so "returns InvalidParallelism if and only if the hint is
zero" fails in the only-if direction at this input. -/
theorem invalid_parallelism_not_reported_on_empty_input :
    Prover.new digC [] 0 = some (Except.error "Data cannot be empty") ∧
    "Data cannot be empty" ≠ "Number of threads cannot be zero" := by
  exact ⟨rfl, by decide⟩

/-- C5 (amended): `Prover::new` returns EmptyInput iff the records are empty,
InputTooLarge iff the record count exceeds 2^20 (a count of exactly 2^20 passes that
check, one above fails), InvalidParallelism iff the hint is zero AND the two earlier
checks pass (nonempty, within the ceiling), and returns Ok whenever all three
preconditions hold; the checks precede any building. -/
theorem prover_new_error_cases (digest : List Bytes → Hash) (data : List Bytes) (nt : Nat) :
    (Prover.new digest data nt = some (Except.error "Data cannot be empty") ↔ data = []) ∧
    (Prover.new digest data nt = some (Except.error "Data size exceeds the maximum allowed size")
      ↔ MAX_DATA_SIZE < data.length) ∧
    (Prover.new digest data nt = some (Except.error "Number of threads cannot be zero")
      ↔ (data ≠ [] ∧ data.length ≤ MAX_DATA_SIZE ∧ nt = 0)) ∧
    (data ≠ [] → data.length ≤ MAX_DATA_SIZE → nt ≠ 0 →
      ∃ p, Prover.new digest data nt = some (Except.ok p) ∧
        p.data_length = data.length) := by
  by_cases hd : data = []
  · subst hd
    refine ⟨by simp [Prover.new], ?_, ?_, by simp⟩
    · rw [show Prover.new digest [] nt = some (Except.error "Data cannot be empty") from rfl]
      simp [MAX_DATA_SIZE]
    · rw [show Prover.new digest [] nt = some (Except.error "Data cannot be empty") from rfl]
      simp
  · have hne : ¬(data.isEmpty = true) := by
      simpa [List.isEmpty_iff] using hd
    by_cases hbig : data.length > MAX_DATA_SIZE
    · have hnew : Prover.new digest data nt =
          some (Except.error "Data size exceeds the maximum allowed size") := by
        unfold Prover.new
        rw [if_neg hne, if_pos hbig]
      rw [hnew]
      refine ⟨by simp [hd], by simp [hbig], by simp; omega, by omega⟩
    · by_cases hnt : nt = 0
      · have hnew : Prover.new digest data nt =
            some (Except.error "Number of threads cannot be zero") := by
          unfold Prover.new
          rw [if_neg hne, if_neg hbig, if_pos hnt]
        rw [hnew]
        refine ⟨by simp [hd], by simp; omega, by simp [hd, hnt]; omega, by omega⟩
      · have hlen1 : 1 ≤ data.length := by
          cases data with
          | nil => exact absurd rfl hd
          | cons x xs => simp
        obtain ⟨R, hnew, _, _, _⟩ :=
          prover_master digest data nt hlen1 (by omega) hnt
        rw [hnew]
        refine ⟨by simp [hd], by simp; omega, by simp [hnt], ?_⟩
        intro _ _ _
        exact ⟨_, rfl, rfl⟩

/-- C6 counterexample: a well-typed proof whose authentication path has 65 entries
drives the verifier shift `1 << height` to a shift amount of 64, an arithmetic-overflow
panic under debug assertions, so `verify_proof` is not total on all well-typed proofs
(the claim holds only for the release profile, where the shift amount is masked). -/
theorem verify_proof_overflow_on_long_path :
    Verifier.verify_proof digC (Verifier.new []) badProof = Option.none := by
  decide

/-- C6 (amended): `verify_proof` returns a boolean, never panicking, on every 32-byte
root hash and every well-typed proof whose authentication path has at most
`USIZE_BITS = 64` entries, however inconsistent its `leaf_index` and path length;
a mismatch surfaces only as `false`.  (Paths longer than 64 overflow the shift in the
debug profile; no proof produced by this library comes near that bound.) -/
theorem verify_proof_total_within_usize_paths (digest : List Bytes → Hash) (root : Hash)
    (pf : MerkleProof) (hlen : pf.authentication_path.length ≤ 64) :
    ∃ b, Verifier.verify_proof digest (Verifier.new root) pf = some b := by
  obtain ⟨h, hv⟩ := verifyLoop_total digest pf.leaf_index pf.authentication_path.reverse 0
    pf.leaf_hash (by simpa using hlen)
  refine ⟨decide (h = root), ?_⟩
  unfold Verifier.verify_proof Verifier.new
  rw [hv]

/-- C6 witness: inconsistent index and path length still give a boolean. -/
theorem verify_proof_total_within_usize_paths_witness :
    ({ leaf_index := 12, leaf_hash := [], authentication_path := [[1], [2]] }
        : MerkleProof).authentication_path.length ≤ 64 ∧
    ∃ b, Verifier.verify_proof digC (Verifier.new [7])
      { leaf_index := 12, leaf_hash := [], authentication_path := [[1], [2]] } = some b :=
  ⟨by decide,
   verify_proof_total_within_usize_paths digC [7]
     { leaf_index := 12, leaf_hash := [], authentication_path := [[1], [2]] } (by decide)⟩

/-- C7: determinism in the parallelism hint: for a fixed record sequence and any two
positive hints, `Prover::new` yields identical results, hence identical root hashes
and identical proofs for every leaf index.  (In the source the hint is only validated,
never used: the positional parallel pair map is scheduler-independent.) -/
theorem root_and_proofs_independent_of_hint (digest : List Bytes → Hash)
    (data : List Bytes) (nt1 nt2 : Nat) (h1 : 0 < nt1) (h2 : 0 < nt2) :
    Prover.new digest data nt1 = Prover.new digest data nt2 ∧
    ∀ p1 p2 i, Prover.new digest data nt1 = some (Except.ok p1) →
      Prover.new digest data nt2 = some (Except.ok p2) →
      p1.get_root_hash = p2.get_root_hash ∧ p1.get_proof i = p2.get_proof i := by
  have hEq : Prover.new digest data nt1 = Prover.new digest data nt2 := by
    unfold Prover.new
    by_cases hd : data.isEmpty = true
    · rw [if_pos hd, if_pos hd]
    · rw [if_neg hd, if_neg hd]
      by_cases hbig : data.length > MAX_DATA_SIZE
      · rw [if_pos hbig, if_pos hbig]
      · rw [if_neg hbig, if_neg hbig,
          if_neg (show ¬(nt1 = 0) by omega), if_neg (show ¬(nt2 = 0) by omega)]
        rfl
  refine ⟨hEq, ?_⟩
  intro p1 p2 i hp1 hp2
  have hp : p1 = p2 := Except.ok.inj (Option.some.inj ((hp1.symm.trans hEq).trans hp2))
  subst hp
  exact ⟨rfl, rfl⟩

/-- C7 witness: hints 1 and 8 on the five-record data set. -/
theorem root_and_proofs_independent_of_hint_witness :
    (0 < 1 ∧ 0 < 8) ∧
    (Prover.new digC dataC 1 = Prover.new digC dataC 8 ∧
      ∀ p1 p2 i, Prover.new digC dataC 1 = some (Except.ok p1) →
        Prover.new digC dataC 8 = some (Except.ok p2) →
        p1.get_root_hash = p2.get_root_hash ∧ p1.get_proof i = p2.get_proof i) :=
  ⟨⟨by decide, by decide⟩,
   root_and_proofs_independent_of_hint digC dataC 1 8 (by decide) (by decide)⟩

/-- C8: on a successfully built prover, `get_proof` returns the LeafIndexOutOfBounds
error exactly when the index is at least the record count, and an Ok proof — with no
panic, every child access along the descent finding a present child — for every index
below it. -/
theorem get_proof_out_of_bounds_iff (digest : List Bytes → Hash) (data : List Bytes)
    (nt : Nat) (h1 : 1 ≤ data.length) (h2 : data.length ≤ MAX_DATA_SIZE) (h3 : 0 < nt) :
    ∃ p, Prover.new digest data nt = some (Except.ok p) ∧
      ∀ i, (data.length ≤ i →
          p.get_proof i = some (Except.error "Leaf index is out of bounds.")) ∧
        (i < data.length → ∃ pf, p.get_proof i = some (Except.ok pf)) := by
  obtain ⟨R, hnew, hRform, _, _⟩ := prover_master digest data nt h1 h2 (by omega)
  refine ⟨_, hnew, ?_⟩
  intro i
  constructor
  · intro hge
    unfold Prover.get_proof
    rw [if_pos hge]
  · intro hi
    obtain ⟨R2, path2, tgt2, hnew2, _, _, hproof2, _, _⟩ :=
      get_proof_success digest data nt i h1 h2 (by omega) hi
    have hstruct : ({ root := R, data_length := data.length } : Prover) =
        { root := R2, data_length := data.length } :=
      Except.ok.inj (Option.some.inj (hnew.symm.trans hnew2))
    have hR : R = R2 := congrArg Prover.root hstruct
    rw [← hR] at hproof2
    exact ⟨_, hproof2⟩

/-- C8 witness: five records, index 5 errors, index 4 succeeds. -/
theorem get_proof_out_of_bounds_iff_witness :
    (1 ≤ dataC.length ∧ dataC.length ≤ MAX_DATA_SIZE ∧ 0 < 4) ∧
    ∃ p, Prover.new digC dataC 4 = some (Except.ok p) ∧
      ∀ i, (dataC.length ≤ i →
          p.get_proof i = some (Except.error "Leaf index is out of bounds.")) ∧
        (i < dataC.length → ∃ pf, p.get_proof i = some (Except.ok pf)) :=
  ⟨⟨by decide, by decide, by decide⟩,
   get_proof_out_of_bounds_iff digC dataC 4 (by decide) (by decide) (by decide)⟩

/-- C9: after a validated construction `get_root_hash` returns Ok with the hash of the root node (the RootMissing branch is unreachable), and on a prover whose root is absent the
accessor returns the RootMissing error value rather than panicking. -/
theorem get_root_hash_ok_after_new (digest : List Bytes → Hash) (data : List Bytes)
    (nt : Nat) (h1 : 1 ≤ data.length) (h2 : data.length ≤ MAX_DATA_SIZE) (h3 : 0 < nt) :
    (∃ p rh, Prover.new digest data nt = some (Except.ok p) ∧
      p.get_root_hash = Except.ok rh) ∧
    ∀ n : Nat, Prover.get_root_hash { root := NodeOpt.none, data_length := n } =
      Except.error "Root node is missing" := by
  constructor
  · obtain ⟨R, hnew, hRform, _, _⟩ := prover_master digest data nt h1 h2 (by omega)
    cases R with
    | none => simp [isNodeForm] at hRform
    | node hh l r => exact ⟨_, hh, hnew, rfl⟩
  · intro n
    rfl

/-- C9 witness: five records, hint 1. -/
theorem get_root_hash_ok_after_new_witness :
    (1 ≤ dataC.length ∧ dataC.length ≤ MAX_DATA_SIZE ∧ 0 < 1) ∧
    ((∃ p rh, Prover.new digC dataC 1 = some (Except.ok p) ∧
      p.get_root_hash = Except.ok rh) ∧
    ∀ n : Nat, Prover.get_root_hash { root := NodeOpt.none, data_length := n } =
      Except.error "Root node is missing") :=
  ⟨⟨by decide, by decide, by decide⟩,
   get_root_hash_ok_after_new digC dataC 1 (by decide) (by decide) (by decide)⟩

/-- C10: the public `Prover::generate_proof` is an unimplemented stub: it panics
(`unimplemented`) on every input and never returns a `MerkleProof` value. -/
theorem generate_proof_never_returns :
    ∀ t : Bytes, Prover.generate_proof t = Option.none := fun _ => rfl
